import Mathlib

/-!
Verification of the scheduling/cancellation/memoization semantics of the
function-wrapper utilities (`debounce`, `throttle`, `memoize`, `once`,
`retry`, `rateLimit` from the function-utils module, and `retryImport`
from the lazy-load module).

The JavaScript wrappers are event-driven: each wrapper owns mutable state
(a pending timer handle, a last-run timestamp, a cache, a queue) and the
host event loop is single-threaded.  We embed each wrapper as a pure
function over a virtual timeline: a sorted list of calls `(time, args)`
is consumed in order, a timer that is due no later than the next call's
timestamp fires before that call is processed, and any timer still
pending after the last call eventually fires.  Durations and timestamps
are natural numbers of milliseconds.
-/

namespace HHToolkit

/-! ## Throttle

Source (`throttle`): state is `timeout : TimerHandle | null` and
`lastRan : number | null`.  On a call at time `now` with args `a`:
if `lastRan === null || now - lastRan >= wait` invoke immediately and set
`lastRan = now`; else if `timeout === null` schedule a timer for
`wait - (now - lastRan)` from now that invokes with the args captured at
schedule time, sets `lastRan` to the fire time and clears `timeout`;
else (a timer is already pending) do nothing: the call is dropped.

`ThState` is the wrapper's mutable state: `lastRan`, and `pending` as the
pair (absolute fire time, args captured when the timer was scheduled).
-/

structure ThState (α : Type) where
  lastRan : Option Nat
  pending : Option (Nat × α)
deriving DecidableEq, Repr

/-- Processing of one call at time `t` with args `a`.  First, a pending
timer due no later than `t` fires (its invocation is emitted, `lastRan`
becomes the fire time, the handle is cleared).  Then the call runs the
body of `throttled`: immediate invocation when there is no prior run or
the window has elapsed; otherwise schedule a trailing timer when none is
pending, and drop the call when one is.  Returns the new state and the
invocations emitted, in order. -/
def throttleStep (wait : Nat) (s : ThState α) (c : Nat × α) :
    ThState α × List (Nat × α) :=
  let t := c.1
  let a := c.2
  let fs : ThState α × List (Nat × α) :=
    match s.pending with
    | some (ft, pa) =>
      if ft ≤ t then (⟨some ft, none⟩, [(ft, pa)]) else (s, [])
    | none => (s, [])
  let s1 := fs.1
  let fired := fs.2
  match s1.pending with
  | some _ => (s1, fired)   -- `timeout !== null`: the call is dropped
  | none =>
    match s1.lastRan with
    | none => (⟨some t, none⟩, fired ++ [(t, a)])
    | some lr =>
      if wait ≤ t - lr then (⟨some t, none⟩, fired ++ [(t, a)])
      else (⟨some lr, some (t + (wait - (t - lr)), a)⟩, fired)

/-- One virtual-timeline run of a throttled wrapper over a sorted call
list; after the last call a still-pending timer fires. -/
def throttleRun (wait : Nat) : List (Nat × α) → ThState α → List (Nat × α)
  | [], s =>
    match s.pending with
    | none => []
    | some (ft, pa) => [(ft, pa)]
  | c :: rest, s =>
    let r := throttleStep wait s c
    r.2 ++ throttleRun wait rest r.1

/-- A fresh throttled wrapper: no prior run, no pending timer. -/
def throttleInit : ThState α := ⟨none, none⟩

/-! ## Debounce

Source (`debounce`): state is a single `timeout : TimerHandle | null`.
Each call clears any pending timer and schedules a fresh one for
`wait` ms later that invokes `func` with that call's args and clears the
handle.  The pending state is modelled as the pair
(absolute fire time, args). -/

/-- One virtual-timeline run of a debounced wrapper over a sorted call
list.  A pending timer due no later than the next call fires first;
otherwise the call cancels it.  Either way the call schedules a fresh
timer at `t + wait` carrying its own args.  After the last call a
still-pending timer fires. -/
def debounceRun (wait : Nat) : List (Nat × α) → Option (Nat × α) → List (Nat × α)
  | [], none => []
  | [], some p => [p]
  | (t, a) :: rest, none => debounceRun wait rest (some (t + wait, a))
  | (t, a) :: rest, some (ft, pa) =>
    if ft ≤ t then
      (ft, pa) :: debounceRun wait rest (some (t + wait, a))
    else
      debounceRun wait rest (some (t + wait, a))

/-! ## Retry

Source (`retry`): a for-loop `for (let i = 0; i <= retries; i++)` that
tries `await func()`, returning its result on success; on failure it
records `lastError = error` and, when `i < retries`, awaits `delayMs`
before the next iteration; after the loop it throws `lastError`.

The wrapped zero-argument async function is modelled as an attempt
oracle `f : Nat → Nat × Except ε ρ`: attempt `i` (0-based) runs for
`(f i).1` ms and ends in outcome `(f i).2`.  The for-loop embeds as
recursion on the remaining iteration count; since `lastError` at loop
exit is always the error of the final attempt, it needs no separate
accumulator.  The run produces the list of attempt intervals
(start, finish) and the final outcome. -/

def retryRun (f : Nat → Nat × Except ε ρ) (delayMs : Nat) :
    Nat → Nat → Nat → List (Nat × Nat) × Except ε ρ
  | 0, i, now => ([(now, now + (f i).1)], (f i).2)
  | rem + 1, i, now =>
    match (f i).2 with
    | .ok v => ([(now, now + (f i).1)], .ok v)
    | .error _ =>
      let r := retryRun f delayMs rem (i + 1) (now + (f i).1 + delayMs)
      ((now, now + (f i).1) :: r.1, r.2)

/-- A run of `retry(func, retries, delayMs)` starting at time 0. -/
def retryModel (f : Nat → Nat × Except ε ρ) (retries delayMs : Nat) :
    List (Nat × Nat) × Except ε ρ :=
  retryRun f delayMs retries 0 0

/-! ## retryImport (lazy-load module)

Source (`retryImport`): `attempt(n)` calls `importFn()`, resolving the
outer promise on success; on failure it rejects when `n === 0` and
otherwise re-runs `attempt(n - 1)` after `delayMs`; the entry point is
`attempt(retries)`.  Here `n` is the remaining-retries countdown, `i`
the 0-based attempt index and `now` the attempt's start time. -/

def retryImportRun (importFn : Nat → Nat × Except ε ρ) (delayMs : Nat) :
    Nat → Nat → Nat → List (Nat × Nat) × Except ε ρ
  | 0, i, now => ([(now, now + (importFn i).1)], (importFn i).2)
  | n + 1, i, now =>
    match (importFn i).2 with
    | .ok v => ([(now, now + (importFn i).1)], .ok v)
    | .error _ =>
      let r := retryImportRun importFn delayMs n (i + 1)
        (now + (importFn i).1 + delayMs)
      ((now, now + (importFn i).1) :: r.1, r.2)

/-- A run of `retryImport(importFn, retries, delayMs)` starting at 0. -/
def retryImportModel (importFn : Nat → Nat × Except ε ρ)
    (retries delayMs : Nat) : List (Nat × Nat) × Except ε ρ :=
  retryImportRun importFn delayMs retries 0 0

/-! ## Once

Source (`once`): `called` starts `false`, `result` starts unassigned
(JS `undefined`, modelled as `none`).  A call with `called` still
`false` sets `called = true` FIRST and then runs `func(...args)` — so a
throwing first call leaves `called = true` with `result` unassigned.
Every call returns `result` (possibly still `undefined`).  The wrapped
function may throw, so it is modelled as `α → Except ε ρ`; a call's
outcome is `Except ε (Option ρ)`: a propagated error, or the returned
`result` (which is `none` exactly when `result` is still `undefined`). -/

structure OnceState (ρ : Type) where
  called : Bool
  result : Option ρ
deriving DecidableEq, Repr

/-- One call through the `once` wrapper.  Returns the new state, the
call's outcome, and how many times `func` was invoked (0 or 1). -/
def onceCall (f : α → Except ε ρ) (s : OnceState ρ) (a : α) :
    OnceState ρ × Except ε (Option ρ) × Nat :=
  if s.called then (s, Except.ok s.result, 0)
  else
    match f a with
    | .ok r => (⟨true, some r⟩, Except.ok (some r), 1)
    | .error e => (⟨true, none⟩, Except.error e, 1)

/-- A sequence of calls through the `once` wrapper: the outcomes in
order, the final state, and the total number of invocations of `func`. -/
def onceRun (f : α → Except ε ρ) : List α → OnceState ρ →
    List (Except ε (Option ρ)) × OnceState ρ × Nat
  | [], s => ([], s, 0)
  | a :: rest, s =>
    let c := onceCall f s a
    let r := onceRun f rest c.1
    (c.2.1 :: r.1, r.2.1, c.2.2 + r.2.2)

/-- A fresh `once` wrapper. -/
def onceInit : OnceState ρ := ⟨false, none⟩

/-! ## Memoize

Source (`memoize`): `cache` is a `Map<string, result>`; a call derives
`key = resolver ? resolver(...args) : JSON.stringify(args)`; on a hit it
returns `cache.get(key)`; on a miss it runs `func(...args)` — if that
throws, `cache.set` is never reached and the error propagates — and
otherwise stores and returns the result.  The cache is modelled as an
association list queried with `List.lookup`; `set` on a key that was
just found absent is a prepend.  `keyf` is the derived key function
(the resolver, or `JSON.stringify` of the args). -/

/-- One call through the `memoize` wrapper: the cache after the call,
the call's outcome, and how many times `func` was invoked (0 or 1). -/
def memoizeCall [DecidableEq κ] (keyf : α → κ) (f : α → Except ε ρ)
    (cache : List (κ × ρ)) (a : α) :
    List (κ × ρ) × Except ε ρ × Nat :=
  let k := keyf a
  match cache.lookup k with
  | some r => (cache, Except.ok r, 0)
  | none =>
    match f a with
    | .ok r => ((k, r) :: cache, Except.ok r, 1)
    | .error e => (cache, Except.error e, 1)

/-! ## JSON.stringify on argument lists (the default memoize key)

A fragment of JavaScript values sufficient for the default key
derivation `JSON.stringify(args)`: `undefined`, `null`, booleans,
(integral) numbers, strings and arrays.  Per the JSON.stringify
algorithm, `undefined` has no serialization of its own (`none`), but as
an array element it is rendered `"null"`; strings are quoted with the
standard escapes. -/

inductive JsValue where
  | jsUndefined : JsValue
  | jsNull : JsValue
  | jsBool : Bool → JsValue
  | jsNum : Int → JsValue
  | jsStr : String → JsValue
  | jsArr : List JsValue → JsValue
deriving Repr

def hexDigit (n : Nat) : Char :=
  if n < 10 then Char.ofNat (48 + n) else Char.ofNat (87 + n)

def jsonEscapeChar (c : Char) : String :=
  if c = '"' then "\\\""
  else if c = '\\' then "\\\\"
  else if c = '\n' then "\\n"
  else if c = '\r' then "\\r"
  else if c = '\t' then "\\t"
  else if c = Char.ofNat 8 then "\\b"
  else if c = Char.ofNat 12 then "\\f"
  else if c.toNat < 32 then
    "\\u00" ++ String.singleton (hexDigit (c.toNat / 16)) ++
      String.singleton (hexDigit (c.toNat % 16))
  else String.singleton c

def jsonEscape (s : String) : String :=
  String.join (s.data.map jsonEscapeChar)

mutual

def jsonStringify : JsValue → Option String
  | .jsUndefined => none
  | .jsNull => some "null"
  | .jsBool b => some (if b then "true" else "false")
  | .jsNum n => some (toString n)
  | .jsStr s => some ("\"" ++ jsonEscape s ++ "\"")
  | .jsArr xs => some ("[" ++ String.intercalate "," (jsonStringifyElems xs) ++ "]")

def jsonStringifyElems : List JsValue → List String
  | [] => []
  | x :: xs => (jsonStringify x).getD "null" :: jsonStringifyElems xs

end

/-- The default cache key of `memoize` without a resolver:
`JSON.stringify(args)` where `args` is the (always-array) argument
list. -/
def defaultKey (args : List JsValue) : String :=
  "[" ++ String.intercalate "," (jsonStringifyElems args) ++ "]"

/-! ## Rate limiter

Source (`rateLimit`): each call pushes `(args, resolve, reject)` onto a
FIFO `queue` and invokes `processQueue`, which returns at once when
`processing` is set or the queue is empty; otherwise it sets
`processing`, shifts the head, awaits `func(...args)`, settles that
call's promise, awaits `minDelay`, clears `processing` and recurses.

A call is a `Job`: its submission order `id`, arrival time, invocation
duration, and whether it settles successfully.  An `Ev` records one
invocation of `func`: the job's id, its start and finish times and its
settlement.  The machine below replays the single-threaded event loop
over a time-ordered arrival list: with an empty queue the next arrival
itself triggers `processQueue` (processing starts at its arrival time);
while a job runs and during the cooldown, arrivals up to the moment
`processing` is cleared (`free`) are appended behind the current queue;
at `free` the recursive `processQueue` immediately starts the next
queued job. -/

structure Job where
  id : Nat
  arrival : Nat
  dur : Nat
  ok : Bool
deriving DecidableEq, Repr

structure Ev where
  id : Nat
  start : Nat
  finish : Nat
  ok : Bool
deriving DecidableEq, Repr

def processQueue (minDelay : Nat) : Nat → List Job → List Job → List Ev
  | _, [], [] => []
  | now, a :: rest, [] =>
    ⟨a.id, max now a.arrival, max now a.arrival + a.dur, a.ok⟩ ::
      processQueue minDelay (max now a.arrival + a.dur + minDelay)
        (rest.dropWhile (fun b => b.arrival ≤ max now a.arrival + a.dur + minDelay))
        (rest.takeWhile (fun b => b.arrival ≤ max now a.arrival + a.dur + minDelay))
  | now, arrivals, j :: qs =>
    ⟨j.id, now, now + j.dur, j.ok⟩ ::
      processQueue minDelay (now + j.dur + minDelay)
        (arrivals.dropWhile (fun b => b.arrival ≤ now + j.dur + minDelay))
        (qs ++ arrivals.takeWhile (fun b => b.arrival ≤ now + j.dur + minDelay))
termination_by _ arr q => arr.length + q.length
decreasing_by
  · have h := congrArg List.length
      (List.takeWhile_append_dropWhile
        (p := fun b => b.arrival ≤ max now a.arrival + a.dur + minDelay) (l := rest))
    simp only [List.length_append] at h
    simp
    omega
  · have h := congrArg List.length
      (List.takeWhile_append_dropWhile
        (p := fun b => b.arrival ≤ now + j.dur + minDelay) (l := arrivals))
    simp only [List.length_append] at h
    simp
    omega

/-- A run of a fresh `rateLimit(func, minDelay)` wrapper over a
time-ordered call list: queue initially empty, clock at 0. -/
def rateLimitRun (minDelay : Nat) (calls : List Job) : List Ev :=
  processQueue minDelay 0 calls []

/-- Consecutive invocations are separated by at least `d` ms between the
finish of one and the start of the next. -/
def Spaced (d : Nat) : List Ev → Prop
  | [] => True
  | [_] => True
  | e1 :: e2 :: rest => e1.finish + d ≤ e2.start ∧ Spaced d (e2 :: rest)

/-! ## Claims C1 and C3 -/

/-- C1 counterexample.  With `wait = 50` and calls at t = 0, 10, 20, the
leading invocation fires at t = 0 with args `0`; the call at t = 10
schedules the trailing timer with args `1`; the call at t = 20 arrives
while that timer is pending and is dropped, so the trailing invocation at
t = 50 carries args `1` — not the most recent call's args `2`, contrary
to the claim that each new call during the window replaces the pending
timer's arguments. -/
theorem throttle_trailing_counterexample :
    throttleRun 50 [(0, 0), (10, 1), (20, 2)] (throttleInit (α := Nat)) =
      [(0, 0), (50, 1)] ∧
    throttleRun 50 [(0, 0), (10, 1), (20, 2)] (throttleInit (α := Nat)) ≠
      [(0, 0), (50, 2)] := by
  constructor
  · rfl
  · decide

/-- C1 (amended).  While a trailing timer is pending, every further call
in the window is dropped outright: the wrapper's state is unchanged and
the deferred invocation fires with the arguments captured when the timer
was scheduled (the first deferred call of the window). -/
theorem throttle_pending_drops_calls (wait ft : Nat) (lr : Option Nat) (pa : α)
    (calls : List (Nat × α)) (h : ∀ c ∈ calls, c.1 < ft) :
    throttleRun wait calls ⟨lr, some (ft, pa)⟩ = [(ft, pa)] := by
  induction calls with
  | nil => rfl
  | cons c rest ih =>
    obtain ⟨t, a⟩ := c
    have ht : ¬ ft ≤ t := Nat.not_le.mpr (h (t, a) (List.mem_cons_self _ _))
    simp only [throttleRun, throttleStep, ht, if_false]
    exact ih (fun c hc => h c (List.mem_cons_of_mem _ hc))

/-- Witness for `throttle_pending_drops_calls` at a concrete input. -/
theorem throttle_pending_drops_calls_witness :
    throttleRun 50 [(20, 2), (30, 3)] (⟨some 0, some (50, 1)⟩ : ThState Nat) =
      [(50, 1)] :=
  throttle_pending_drops_calls 50 50 (some 0) 1 [(20, 2), (30, 3)] (by decide)

theorem getLastD_cons (l : List β) (x d : β) :
    ((x :: l).getLast?).getD d = (l.getLast?).getD x := by
  induction l generalizing x d with
  | nil => rfl
  | cons y ys ih => rw [List.getLast?_cons_cons, ih y d, ih y x]

theorem debounce_burst_aux (wait : Nat) :
    ∀ (rest : List (Nat × α)) (t0 : Nat) (a0 : α),
      List.Chain' (fun c d => c.1 ≤ d.1 ∧ d.1 < c.1 + wait) ((t0, a0) :: rest) →
      debounceRun wait rest (some (t0 + wait, a0)) =
        [((rest.getLast?.getD (t0, a0)).1 + wait, (rest.getLast?.getD (t0, a0)).2)]
  | [], t0, a0, _ => rfl
  | (t, a) :: rs, t0, a0, h => by
    have h1 := (List.chain'_cons.mp h).1
    have htail := (List.chain'_cons.mp h).2
    have ht : ¬ t0 + wait ≤ t := Nat.not_le.mpr h1.2
    simp only [debounceRun, ht, if_false]
    rw [debounce_burst_aux wait rs t a htail, getLastD_cons]

/-- C3.  A burst of calls in time order, each strictly less than `wait`
after its predecessor, collapses to exactly one invocation, which fires
`wait` after the final call of the burst and carries that final call's
arguments: each call cancelled the previously pending timer and
rescheduled with its own args. -/
theorem debounce_collapses_burst (wait t0 : Nat) (a0 : α)
    (rest : List (Nat × α))
    (h : List.Chain' (fun c d => c.1 ≤ d.1 ∧ d.1 < c.1 + wait) ((t0, a0) :: rest)) :
    debounceRun wait ((t0, a0) :: rest) none =
      [((rest.getLast?.getD (t0, a0)).1 + wait, (rest.getLast?.getD (t0, a0)).2)] := by
  show debounceRun wait rest (some (t0 + wait, a0)) = _
  exact debounce_burst_aux wait rest t0 a0 h

/-- Witness for `debounce_collapses_burst`: the spec's own example, calls
at t = 0, 10, 20 with `wait = 50` produce exactly one invocation at
t = 70 with the t = 20 call's args. -/
theorem debounce_collapses_burst_witness :
    debounceRun 50 [(0, 10), (10, 11), (20, 12)] none = [(70, 12)] := by
  have h := debounce_collapses_burst 50 0 10 [(10, 11), (20, 12)]
    (by norm_num [List.chain'_cons, List.chain'_singleton])
  simpa using h

/-! ## Claims C4, C5, C10 -/

theorem retryRun_trace_head (f : Nat → Nat × Except ε ρ) (delayMs : Nat)
    (rem i now : Nat) :
    ∃ l, (retryRun f delayMs rem i now).1 = (now, now + (f i).1) :: l := by
  cases rem with
  | zero => exact ⟨[], rfl⟩
  | succ n =>
    cases hfi : (f i).2 with
    | ok v => exact ⟨[], by simp [retryRun, hfi]⟩
    | error e =>
      exact ⟨(retryRun f delayMs n (i + 1) (now + (f i).1 + delayMs)).1,
        by simp [retryRun, hfi]⟩

theorem retryRun_length (f : Nat → Nat × Except ε ρ) (delayMs : Nat) :
    ∀ (rem i now : Nat), (retryRun f delayMs rem i now).1.length ≤ rem + 1
  | 0, _, _ => le_refl _
  | rem + 1, i, now => by
    cases hfi : (f i).2 with
    | ok v => simp [retryRun, hfi]
    | error e =>
      have ih := retryRun_length f delayMs rem (i + 1) (now + (f i).1 + delayMs)
      simp only [retryRun, hfi, List.length_cons]
      omega

theorem retryRun_spacing (f : Nat → Nat × Except ε ρ) (delayMs : Nat) :
    ∀ (rem i now : Nat),
      List.Chain' (fun a b => b.1 = a.2 + delayMs) (retryRun f delayMs rem i now).1
  | 0, _, _ => List.chain'_singleton _
  | rem + 1, i, now => by
    cases hfi : (f i).2 with
    | ok v => simp [retryRun, hfi]
    | error e =>
      have ih := retryRun_spacing f delayMs rem (i + 1) (now + (f i).1 + delayMs)
      obtain ⟨l, hl⟩ := retryRun_trace_head f delayMs rem (i + 1) (now + (f i).1 + delayMs)
      simp only [retryRun, hfi]
      rw [List.chain'_cons']
      refine ⟨?_, ih⟩
      intro b hb
      rw [hl] at hb
      simp only [List.head?_cons, Option.mem_def, Option.some_inj] at hb
      subst hb
      rfl

theorem retryRun_first_success (f : Nat → Nat × Except ε ρ) (delayMs : Nat) :
    ∀ (k rem i now : Nat) (v : ρ),
      (∀ j < k, ∃ e, (f (i + j)).2 = Except.error e) → k ≤ rem →
      (f (i + k)).2 = Except.ok v →
      (retryRun f delayMs rem i now).2 = Except.ok v ∧
      (retryRun f delayMs rem i now).1.length = k + 1
  | 0, rem, i, now, v, _, _, hok => by
    rw [Nat.add_zero] at hok
    cases rem with
    | zero => exact ⟨hok, rfl⟩
    | succ n => exact ⟨by simp [retryRun, hok], by simp [retryRun, hok]⟩
  | k + 1, rem, i, now, v, hfail, hle, hok => by
    obtain ⟨e, he⟩ := hfail 0 (Nat.succ_pos k)
    rw [Nat.add_zero] at he
    obtain ⟨rem', rfl⟩ : ∃ rem', rem = rem' + 1 :=
      ⟨rem - 1, by omega⟩
    have ih := retryRun_first_success f delayMs k rem' (i + 1)
      (now + (f i).1 + delayMs) v
      (fun j hj => by
        have := hfail (j + 1) (Nat.succ_lt_succ hj)
        rwa [show i + (j + 1) = i + 1 + j by omega] at this)
      (by omega)
      (by rwa [show i + 1 + k = i + (k + 1) by omega])
    refine ⟨?_, ?_⟩
    · simpa [retryRun, he] using ih.1
    · simp only [retryRun, he, List.length_cons]
      omega

/-- C4.  `retry` makes at most `retries + 1` attempts; each attempt after
the first starts exactly `delayMs` after the previous attempt finished;
and if the attempts with index below `k` all fail while attempt `k`
(for `k ≤ retries`) succeeds with `v`, the run resolves with `v` after
exactly `k + 1` attempts — no further attempt is made. -/
theorem retry_attempt_count_spacing_success (f : Nat → Nat × Except ε ρ)
    (retries delayMs : Nat) :
    (retryModel f retries delayMs).1.length ≤ retries + 1 ∧
    List.Chain' (fun a b => b.1 = a.2 + delayMs) (retryModel f retries delayMs).1 ∧
    (∀ k v, (∀ j < k, ∃ e, (f j).2 = Except.error e) → k ≤ retries →
      (f k).2 = Except.ok v →
      (retryModel f retries delayMs).2 = Except.ok v ∧
      (retryModel f retries delayMs).1.length = k + 1) :=
  ⟨retryRun_length f delayMs retries 0 0,
   retryRun_spacing f delayMs retries 0 0,
   fun k v hfail hk hok =>
     retryRun_first_success f delayMs k retries 0 0 v
       (by simpa using hfail) hk (by simpa using hok)⟩

/-- Witness for `retry_attempt_count_spacing_success`: an operation that
fails once then succeeds with 42, under `retries = 2`, `delayMs = 5`,
resolves with 42 after exactly 2 attempts. -/
theorem retry_attempt_count_spacing_success_witness :
    (retryModel (fun i => if i = 0 then (3, Except.error 7) else (3, Except.ok 42))
        2 5).2 = Except.ok 42 ∧
    (retryModel (fun i => if i = 0 then (3, Except.error 7) else (3, Except.ok 42))
        2 5).1.length = 2 := by
  have h := (retry_attempt_count_spacing_success
    (fun i => if i = 0 then (3, Except.error 7) else (3, Except.ok 42)) 2 5).2.2
    1 42
    (by
      intro j hj
      have hj0 : j = 0 := by omega
      subst hj0
      exact ⟨7, rfl⟩)
    (by omega)
    (by rfl)
  exact h

theorem retryRun_all_fail (f : Nat → Nat × Except ε ρ) (delayMs : Nat) :
    ∀ (rem i now : Nat),
      (∀ j ≤ rem, ∃ e, (f (i + j)).2 = Except.error e) →
      (retryRun f delayMs rem i now).2 = (f (i + rem)).2 ∧
      (retryRun f delayMs rem i now).1.length = rem + 1
  | 0, i, now, _ => by simp [retryRun]
  | rem + 1, i, now, hall => by
    obtain ⟨e, he⟩ := hall 0 (Nat.zero_le _)
    rw [Nat.add_zero] at he
    have ih := retryRun_all_fail f delayMs rem (i + 1) (now + (f i).1 + delayMs)
      (fun j hj => by
        have := hall (j + 1) (Nat.succ_le_succ hj)
        rwa [show i + (j + 1) = i + 1 + j by omega] at this)
    refine ⟨?_, ?_⟩
    · rw [show i + (rem + 1) = i + 1 + rem by omega]
      simpa [retryRun, he] using ih.1
    · simp only [retryRun, he, List.length_cons]
      omega

/-- C5.  When every one of the `retries + 1` attempts fails, `retry`
makes exactly `retries + 1` attempts and rejects with the error of the
final attempt (index `retries`); earlier errors are discarded. -/
theorem retry_exhaustion_rejects_with_last_error (f : Nat → Nat × Except ε ρ)
    (retries delayMs : Nat) (e : ε)
    (hall : ∀ j ≤ retries, ∃ e0, (f j).2 = Except.error e0)
    (hlast : (f retries).2 = Except.error e) :
    (retryModel f retries delayMs).2 = Except.error e ∧
    (retryModel f retries delayMs).1.length = retries + 1 := by
  have h := retryRun_all_fail f delayMs retries 0 0 (by simpa using hall)
  refine ⟨?_, h.2⟩
  rw [retryModel, h.1]
  simpa using hlast

/-- Witness for `retry_exhaustion_rejects_with_last_error`: the spec's
example — always failing with error `i + 1` at attempt `i`, under
`retries = 2`, rejects with the 3rd attempt's error `3`, not `1` or `2`. -/
theorem retry_exhaustion_rejects_with_last_error_witness :
    (retryModel (fun i => ((2 : Nat), (Except.error (i + 1) : Except Nat Nat)))
        2 5).2 = Except.error 3 ∧
    (retryModel (fun i => ((2 : Nat), (Except.error (i + 1) : Except Nat Nat)))
        2 5).1.length = 3 :=
  retry_exhaustion_rejects_with_last_error
    (fun i => ((2 : Nat), (Except.error (i + 1) : Except Nat Nat))) 2 5 3
    (fun j _ => ⟨j + 1, rfl⟩) rfl

/-- C10.  The two retriers are observably equivalent: for the same
attempt oracle, retry budget and delay, `retry` and `retryImport`
produce the same attempt schedule and the same final outcome (first
success's value, or the last attempt's error on exhaustion). -/
theorem retry_retryImport_equivalent (f : Nat → Nat × Except ε ρ)
    (retries delayMs : Nat) :
    retryModel f retries delayMs = retryImportModel f retries delayMs := by
  suffices h : ∀ rem i now,
      retryRun f delayMs rem i now = retryImportRun f delayMs rem i now from
    h retries 0 0
  intro rem
  induction rem with
  | zero => intro i now; rfl
  | succ n ih =>
    intro i now
    cases hfi : (f i).2 with
    | ok v => simp [retryRun, retryImportRun, hfi]
    | error e => simp [retryRun, retryImportRun, hfi, ih]

/-! ## Claims C6, C9, C7, C8 -/

theorem onceRun_called (f : α → Except ε ρ) (r : Option ρ) :
    ∀ (calls : List α),
      onceRun f calls ⟨true, r⟩ =
        (List.replicate calls.length (Except.ok r), ⟨true, r⟩, 0)
  | [] => rfl
  | a :: rest => by
    simp [onceRun, onceCall, onceRun_called f r rest, List.replicate_succ]

/-- C6.  For any nonempty call sequence through `once(fn)` with a
non-throwing `fn`, the underlying function is invoked exactly once — on
the first call, with the first call's arguments — and every call
returns the same stored result `fn(firstArgs)`. -/
theorem once_invoked_exactly_once (f : α → ρ) (c : α) (rest : List α) :
    onceRun (fun a => (Except.ok (f a) : Except ε ρ)) (c :: rest) onceInit =
      (List.replicate (rest.length + 1) (Except.ok (some (f c))),
        ⟨true, some (f c)⟩, 1) := by
  simp [onceRun, onceCall, onceInit, onceRun_called, List.replicate_succ]

/-- C9.  When the first call's invocation of `fn` throws, the error
propagates to that caller only; the wrapper is nonetheless marked
called, so every later call returns `undefined` (`none`) without
invoking `fn` again: one invocation total, the error never replayed. -/
theorem once_error_not_replayed (f : α → Except ε ρ) (c : α) (rest : List α)
    (e : ε) (h : f c = Except.error e) :
    onceRun f (c :: rest) onceInit =
      (Except.error e :: List.replicate rest.length (Except.ok none),
        ⟨true, none⟩, 1) := by
  simp [onceRun, onceCall, onceInit, h, onceRun_called]

/-- Witness for `once_error_not_replayed`: a wrapped function that always
throws `7`, called three times. -/
theorem once_error_not_replayed_witness :
    onceRun (fun _ => (Except.error 7 : Except Nat Nat)) [0, 1, 2] onceInit =
      (Except.error 7 :: List.replicate 2 (Except.ok none), ⟨true, none⟩, 1) :=
  once_error_not_replayed (fun _ => (Except.error 7 : Except Nat Nat)) 0 [1, 2] 7 rfl

/-- C7.  A cache hit returns the cached result without invoking `fn` and
leaves the cache unchanged; a non-throwing miss invokes `fn`, stores the
result under the key and returns it; a throwing miss invokes `fn`,
propagates the error, leaves the cache unchanged — and therefore a
second call deriving the same key invokes `fn` again. -/
theorem memoize_error_not_cached [DecidableEq κ] (keyf : α → κ)
    (f : α → Except ε ρ) (cache : List (κ × ρ)) (a : α) :
    (∀ r, cache.lookup (keyf a) = some r →
      memoizeCall keyf f cache a = (cache, Except.ok r, 0)) ∧
    (∀ v, cache.lookup (keyf a) = none → f a = Except.ok v →
      memoizeCall keyf f cache a = ((keyf a, v) :: cache, Except.ok v, 1)) ∧
    (∀ e, cache.lookup (keyf a) = none → f a = Except.error e →
      memoizeCall keyf f cache a = (cache, Except.error e, 1) ∧
      (memoizeCall keyf f (memoizeCall keyf f cache a).1 a).2.2 = 1) := by
  refine ⟨?_, ?_, ?_⟩
  · intro r hr
    simp [memoizeCall, hr]
  · intro v hn hv
    simp [memoizeCall, hn, hv]
  · intro e hn he
    have h1 : memoizeCall keyf f cache a = (cache, Except.error e, 1) := by
      simp [memoizeCall, hn, he]
    exact ⟨h1, by rw [h1]; simp [memoizeCall, hn, he]⟩

/-- Witness for `memoize_error_not_cached`: a wrapped function that
always throws `5`, an identity key and an empty cache — the error is not
cached and the second identical call invokes the function again. -/
theorem memoize_error_not_cached_witness :
    memoizeCall (fun n : Nat => n)
        (fun _ => (Except.error 5 : Except Nat Nat)) [] 0 =
      ([], Except.error 5, 1) ∧
    (memoizeCall (fun n : Nat => n)
        (fun _ => (Except.error 5 : Except Nat Nat))
        (memoizeCall (fun n : Nat => n)
          (fun _ => (Except.error 5 : Except Nat Nat)) [] 0).1 0).2.2 = 1 :=
  (memoize_error_not_cached (fun n : Nat => n)
    (fun _ => (Except.error 5 : Except Nat Nat)) [] 0).2.2 5 rfl rfl

/-- C8 counterexample.  The argument lists `[undefined]` and `[null]`
differ in value and type, yet `JSON.stringify` renders both as
`"[null]"`: they derive the same default cache key and would share a
cache entry, contrary to the claim that any two differing argument
lists derive different keys. -/
theorem default_key_collision_counterexample :
    defaultKey [JsValue.jsUndefined] = defaultKey [JsValue.jsNull] ∧
    [JsValue.jsUndefined] ≠ [JsValue.jsNull] := by
  refine ⟨by decide, ?_⟩
  intro h
  injection h with h1 _
  exact JsValue.noConfusion h1

/-- C8 (amended).  The default key is a deterministic, order-sensitive
serialization of the argument list that distinguishes many shapes —
the number `1` from the string `"1"`, and `(1, 2)` from `(2, 1)` — but
it does not distinguish all differing argument lists: values with the
same JSON rendering, such as `undefined` and `null`, collide. -/
theorem default_key_order_and_type_sensitive :
    defaultKey [JsValue.jsNum 1] ≠ defaultKey [JsValue.jsStr "1"] ∧
    defaultKey [JsValue.jsNum 1, JsValue.jsNum 2] ≠
      defaultKey [JsValue.jsNum 2, JsValue.jsNum 1] ∧
    defaultKey [JsValue.jsUndefined] = defaultKey [JsValue.jsNull] :=
  ⟨by decide, by decide, by decide⟩

/-! ## Claim C2 -/

theorem processQueue_ids (minDelay : Nat) (now : Nat) (arrivals queue : List Job) :
    (processQueue minDelay now arrivals queue).map Ev.id =
      queue.map Job.id ++ arrivals.map Job.id := by
  induction now, arrivals, queue using processQueue.induct minDelay with
  | case1 x => simp [processQueue]
  | case2 now a rest ih =>
    simp only [processQueue, List.map_cons, ih, List.nil_append]
    rw [← List.map_append, List.takeWhile_append_dropWhile]
    simp
  | case3 now arrivals j qs ih =>
    simp only [processQueue, List.map_cons, ih]
    rw [List.map_append, List.append_assoc, ← List.map_append,
      List.takeWhile_append_dropWhile]
    simp

theorem processQueue_start_bounds (minDelay : Nat) (now : Nat)
    (arrivals queue : List Job) :
    ∀ e ∈ processQueue minDelay now arrivals queue,
      now ≤ e.start ∧ e.start ≤ e.finish := by
  induction now, arrivals, queue using processQueue.induct minDelay with
  | case1 x =>
    intro e he
    simp [processQueue] at he
  | case2 now a rest ih =>
    intro e he
    rw [processQueue, List.mem_cons] at he
    rcases he with he | he
    · subst he
      exact ⟨Nat.le_max_left _ _, Nat.le_add_right _ _⟩
    · have h := ih e he
      constructor
      · calc now ≤ max now a.arrival + a.dur + minDelay := by
              have := Nat.le_max_left now a.arrival
              omega
          _ ≤ e.start := h.1
      · exact h.2
  | case3 now arrivals j qs ih =>
    intro e he
    rw [processQueue, List.mem_cons] at he
    rcases he with he | he
    · subst he
      exact ⟨Nat.le_refl _, Nat.le_add_right _ _⟩
    · have h := ih e he
      exact ⟨by omega, h.2⟩

theorem processQueue_spaced (minDelay : Nat) (now : Nat)
    (arrivals queue : List Job) :
    Spaced minDelay (processQueue minDelay now arrivals queue) := by
  induction now, arrivals, queue using processQueue.induct minDelay with
  | case1 x => simp [processQueue, Spaced]
  | case2 now a rest ih =>
    rw [processQueue]
    cases htail : processQueue minDelay (max now a.arrival + a.dur + minDelay)
        (rest.dropWhile (fun b => b.arrival ≤ max now a.arrival + a.dur + minDelay))
        (rest.takeWhile (fun b => b.arrival ≤ max now a.arrival + a.dur + minDelay)) with
    | nil => exact trivial
    | cons e2 tl =>
      refine ⟨?_, htail ▸ ih⟩
      have h2 := processQueue_start_bounds minDelay
        (max now a.arrival + a.dur + minDelay) _ _ e2
        (by rw [htail]; exact List.mem_cons_self _ _)
      exact h2.1
  | case3 now arrivals j qs ih =>
    rw [processQueue]
    cases htail : processQueue minDelay (now + j.dur + minDelay)
        (arrivals.dropWhile (fun b => b.arrival ≤ now + j.dur + minDelay))
        (qs ++ arrivals.takeWhile (fun b => b.arrival ≤ now + j.dur + minDelay)) with
    | nil => exact trivial
    | cons e2 tl =>
      refine ⟨?_, htail ▸ ih⟩
      have h2 := processQueue_start_bounds minDelay
        (now + j.dur + minDelay) _ _ e2
        (by rw [htail]; exact List.mem_cons_self _ _)
      exact h2.1

theorem spaced_pairwise (d : Nat) :
    ∀ (l : List Ev), Spaced d l → (∀ e ∈ l, e.start ≤ e.finish) →
      List.Pairwise (fun e1 e2 => e1.finish + d ≤ e2.start) l
  | [], _, _ => List.Pairwise.nil
  | [e], _, _ => by simp
  | e1 :: e2 :: rest, hsp, hb => by
    have htl := spaced_pairwise d (e2 :: rest) hsp.2
      (fun e he => hb e (List.mem_cons_of_mem _ he))
    refine List.Pairwise.cons ?_ htl
    intro b hb2
    rcases List.mem_cons.mp hb2 with h | h
    · subst h
      exact hsp.1
    · have h1 := (List.pairwise_cons.mp htl).1 b h
      have h2 := hb e2 (List.mem_cons_of_mem _ (List.mem_cons_self _ _))
      have h3 := hsp.1
      omega

/-- C2.  A rate-limited wrapper invokes `func` exactly once per submitted
call, in FIFO submission order; every invocation finishes no earlier
than it starts and any two invocations are fully sequential — the
earlier one's finish precedes the later one's start by at least
`minDelay` — so no two run concurrently and at least `minDelay` elapses
between one completion and the next start. -/
theorem rateLimit_fifo_serial_cooldown (minDelay : Nat) (calls : List Job) :
    (rateLimitRun minDelay calls).map Ev.id = calls.map Job.id ∧
    Spaced minDelay (rateLimitRun minDelay calls) ∧
    (∀ e ∈ rateLimitRun minDelay calls, e.start ≤ e.finish) ∧
    List.Pairwise (fun e1 e2 => e1.finish + minDelay ≤ e2.start)
      (rateLimitRun minDelay calls) := by
  refine ⟨?_, processQueue_spaced minDelay 0 calls [], ?_, ?_⟩
  · simpa using processQueue_ids minDelay 0 calls []
  · intro e he
    exact (processQueue_start_bounds minDelay 0 calls [] e he).2
  · exact spaced_pairwise minDelay _ (processQueue_spaced minDelay 0 calls [])
      (fun e he => (processQueue_start_bounds minDelay 0 calls [] e he).2)

end HHToolkit
